import Mathlib

set_option linter.unusedSectionVars false
set_option linter.unusedVariables false

/-!
Shallow embedding of `bidirectional_map.hpp` (namespace `bimap`).

The C++ container keeps two base associative containers:
  * the forward store `map       : ForwardMapType<ForwardKey, Surrogate<const InverseKey>>`
  * the inverse store `inverseAccess->map : InverseMapType<InverseKey, Surrogate<const ForwardKey>>`
Each stored value is a non-owning pointer (`impl::Surrogate`) to the key slot of
the same logical pair inside the sibling store.

Embedding choices:
  * A base store is a `List (K × Nat)`; the `Nat` is the pair id.  Every logical
    pair carries one fresh id (drawn from `nextId`), which models the node
    addresses: the forward slot of pair `p` stores a pointer to the inverse slot
    of pair `p` and vice versa, so both cross-pointers are rendered by the one id.
  * Base-container iterators (node pointers) are rendered as `Option Nat`:
    `some p` points at the slot of pair `p`, `none` is the past-the-end sentinel.
    Iterator equality in the source compares the wrapped base iterators, which
    matches id (node) equality here.
  * Iteration order: entries are kept in a list.  `std::unordered_map` leaves
    the order unspecified but multimaps keep equivalent keys adjacent, so base
    insertion (`insertAdj`) places a new entry directly before the first entry
    with an equivalent key and otherwise at the back; this keeps equal keys
    adjacent, as the standard containers do.
  * The multimap-ness of the two base containers
    (`impl::traits::is_multimap_v<ForwardMap>` / `...<InverseMap>`) are the
    type-level Booleans `bF`, `bI`, mirroring the template parameters.
  * Dereferencing an invalid (dangling) iterator is undefined behaviour in C++;
    the embedding returns an unchanged state / `none` / a distinguished error in
    those branches.  They are unreachable from well-formed states (`WF` below),
    which is what every theorem that could touch them assumes.
-/

/-- Base-container lookup by key (`map.find(key)` of the underlying container):
the node pointer (pair id) of the first entry whose key equals `k`, or `none`
for the past-the-end iterator. -/
def findKey? {K : Type} [DecidableEq K] : List (K × Nat) → K → Option Nat
  | [], _ => none
  | e :: rest, k => if e.1 = k then some e.2 else findKey? rest k

/-- Dereferencing a node pointer: the key stored in the slot of pair `p`
(models following a `Surrogate` pointer into this store). -/
def keyOf? {K : Type} : List (K × Nat) → Nat → Option K
  | [], _ => none
  | e :: rest, p => if e.2 = p then some e.1 else keyOf? rest p

/-- Base-container insertion (`map.emplace`): the new entry is placed directly
before the first entry with an equivalent key (keeping equivalent keys adjacent,
as the standard multimaps guarantee), or at the back when the key is new.
`bidirectional_map::emplace` only reaches a base insertion after its uniqueness
guards, so for unique-key base containers the key is never already present. -/
def insertAdj {K : Type} [DecidableEq K] : List (K × Nat) → K → Nat → List (K × Nat)
  | [], k, p => [(k, p)]
  | e :: rest, k, p => if e.1 = k then (k, p) :: e :: rest else e :: insertAdj rest k p

/-- Base-container node erase (`map.erase(iterator)`): removes the slot of pair
`p`.  Pair ids are unique in a store, so removing the first match is exact. -/
def eraseId {K : Type} : List (K × Nat) → Nat → List (K × Nat)
  | [], _ => []
  | e :: rest, p => if e.2 = p then rest else e :: eraseId rest p

/-- Iterator following the slot of pair `p` in this store (what
`map.erase(iterator)` returns in the source): the id of the next entry, or the
end sentinel. -/
def nextOf {K : Type} : List (K × Nat) → Nat → Option Nat
  | [], _ => none
  | e :: rest, p => if e.2 = p then (rest.head?).map Prod.snd else nextOf rest p

/-- Pair ids stored in a base store (the node addresses). -/
def pids {K : Type} (l : List (K × Nat)) : List Nat := l.map Prod.snd

/-- Keys stored in a base store, in iteration order. -/
def keyList {K : Type} (l : List (K × Nat)) : List K := l.map Prod.fst

/-- The state of a `bimap::bidirectional_map<ForwardKey, InverseKey,
ForwardMapType, InverseMapType>` together with its inverse sibling (in the
source the sibling is a second object reached through `inverseAccess`; both
objects address the same two base stores, so one state value renders both).
`bF`/`bI` are `impl::traits::is_multimap_v` of the forward and inverse base
container types.  `nextId` is the supply of fresh pair ids (node addresses). -/
structure bidirectional_map (α β : Type) (bF bI : Bool) where
  map : List (α × Nat)
  invMap : List (β × Nat)
  nextId : Nat
deriving DecidableEq

namespace bidirectional_map

variable {α β : Type} [DecidableEq α] [DecidableEq β] {bF bI : Bool}

/-- The default constructor `bidirectional_map()`: both stores empty. -/
def emptyBimap (α β : Type) (bF bI : Bool) : bidirectional_map α β bF bI :=
  ⟨[], [], 0⟩

/-- Member `inverse()`: the same underlying data viewed with the two stores (and
the two base-container types) swapped.  In the source this is the sibling object
`*inverseAccess`, which shares both stores with `*this`. -/
def inverse (m : bidirectional_map α β bF bI) : bidirectional_map β α bI bF :=
  ⟨m.invMap, m.map, m.nextId⟩

/-- Member `size()`: `map.size()` of the forward store. -/
def size (m : bidirectional_map α β bF bI) : Nat := m.map.length

/-- Member `find(key)`: wraps `map.find(key)` of the forward store. -/
def find (m : bidirectional_map α β bF bI) (k : α) : Option Nat :=
  findKey? m.map k

/-- Dereference `it->first` of a positioned forward iterator: the forward key
stored in the slot of pair `p`. -/
def derefFst (m : bidirectional_map α β bF bI) (p : Nat) : Option α :=
  keyOf? m.map p

/-- Dereference `it->second` of a positioned forward iterator: the inverse key
the slot's `Surrogate` points to, i.e. the key of pair `p` in the inverse
store. -/
def derefSnd (m : bidirectional_map α β bF bI) (p : Nat) : Option β :=
  keyOf? m.invMap p

/-- Composite `find(key)->second` (dereference of the result of `find`): the
inverse key of the pair found by forward key `k`, or `none` when `find` returns
the end iterator. -/
def findSnd (m : bidirectional_map α β bF bI) (k : α) : Option β :=
  (m.find k).bind (keyOf? m.invMap)

/-- The logical pair (a, b) is currently stored: some pair id `p` has `a` in
the forward store's slot of `p` and `b` in the inverse store's slot of `p`. -/
def pairPresent (m : bidirectional_map α β bF bI) (a : α) (b : β) : Prop :=
  ∃ e ∈ m.map, e.1 = a ∧ (b, e.2) ∈ m.invMap

instance (m : bidirectional_map α β bF bI) (a : α) (b : β) :
    Decidable (m.pairPresent a b) := by
  unfold pairPresent; infer_instance

/-- Member `emplace(args...)`, translated from the source:

  * builds the pair `tmp = (a, b)`;
  * when the forward base container is not a multimap, `find(tmp.first)`; a hit
    returns `(res, false)` without touching either store;
  * when the inverse base container is not a multimap, `inverse().find(tmp.second)`;
    a hit returns `(find(invRes->second), false)` without touching either store
    (`invRes->second` is the forward key the conflicting inverse slot points to);
  * otherwise inserts the forward key into the forward store and the inverse key
    into the inverse store, the two slots pointing at each other (one fresh pair
    id renders the placeholder-then-backpatch pointer wiring of the source), and
    returns `(iterator to the new pair, true)`.

The result is (new state, returned iterator, returned bool). -/
def emplace (m : bidirectional_map α β bF bI) (a : α) (b : β) :
    bidirectional_map α β bF bI × Option Nat × Bool :=
  let fwdConflict : Option Nat := if bF then none else m.find a
  match fwdConflict with
  | some p => (m, some p, false)
  | none =>
    let invConflict : Option Nat := if bI then none else findKey? m.invMap b
    match invConflict with
    | some p =>
      -- find(invRes->second): dereferencing a dangling pointer is unreachable
      -- from well-formed states; the embedding then returns the end iterator.
      (m, (keyOf? m.map p).bind (findKey? m.map), false)
    | none =>
      (⟨insertAdj m.map a m.nextId, insertAdj m.invMap b m.nextId, m.nextId + 1⟩,
       some m.nextId, true)

/-- Member `erase(iterator pos)`, translated from the source:

  * `pos == end()` returns `pos` unchanged (no-op);
  * when the inverse base container is a multimap, the sibling slot is found by
    pointer identity inside `inverse().equal_range(pos->second)` — which is
    exactly the inverse slot of the same pair id — and erased;
  * otherwise the sibling slot is found by value, `inverseAccess->map.find(pos->second)`,
    and erased;
  * finally the forward slot is erased and the follower iterator returned.

Dereferencing an invalid `pos` (its id in no store) is unreachable for valid
iterators; the embedding then leaves the state unchanged and returns `none`. -/
def erase (m : bidirectional_map α β bF bI) (pos : Option Nat) :
    bidirectional_map α β bF bI × Option Nat :=
  match pos with
  | none => (m, none)
  | some p =>
    match keyOf? m.invMap p with
    | none => (m, none)
    | some b =>
      let newInv : List (β × Nat) :=
        if bI then
          eraseId m.invMap p
        else
          match findKey? m.invMap b with
          | some q => eraseId m.invMap q
          | none => m.invMap
      (⟨eraseId m.map p, newInv, m.nextId⟩, nextOf m.map p)

/-- Member `equal_range(key)` on the forward store: first iterator of the run of
entries with key `k` and the iterator following that run (`(end, end)` when the
key is absent, as for the unordered base containers). -/
def equal_range (m : bidirectional_map α β bF bI) (k : α) : Option Nat × Option Nat :=
  match m.find k with
  | none => (none, none)
  | some p =>
    (some p,
     ((m.map.dropWhile (fun e => decide (e.1 ≠ k))).dropWhile
        (fun e => decide (e.1 = k))).head?.map Prod.snd)

/-- Loop body of `erase(const ForwardKey&)`: `while (curr != last) { curr = erase(curr); ++numErased; }`.
The fuel argument only bounds the recursion; `erase` either shrinks the forward
store or moves `curr` to the end sentinel, so the fuel `erase_key` supplies is
never exhausted on states whose loop terminates in the source. -/
def eraseKeyLoop (m : bidirectional_map α β bF bI) :
    Nat → Option Nat → Option Nat → Nat → bidirectional_map α β bF bI × Nat
  | 0, _, _, n => (m, n)
  | fuel + 1, curr, last, n =>
    if curr = last then (m, n)
    else
      let r := m.erase curr
      eraseKeyLoop r.1 fuel r.2 last (n + 1)

/-- Member `erase(const ForwardKey &key)`: `equal_range(key)`, then single-slot
erase until the end of the range; returns (new state, number erased). -/
def erase_key (m : bidirectional_map α β bF bI) (k : α) :
    bidirectional_map α β bF bI × Nat :=
  let r := m.equal_range k
  eraseKeyLoop m (m.map.length + 2) r.1 r.2 0

/-- Loop of `erase(iterator first, iterator last)`:
`while (first != last && first != end()) first = erase(first);`.  The end
sentinel is `none`.  Fuel as in `eraseKeyLoop`. -/
def eraseRangeLoop (m : bidirectional_map α β bF bI) :
    Nat → Option Nat → Option Nat → bidirectional_map α β bF bI × Option Nat
  | 0, first, _ => (m, first)
  | fuel + 1, first, last =>
    if first = last ∨ first = none then (m, first)
    else
      let r := m.erase first
      eraseRangeLoop r.1 fuel r.2 last

/-- Member `erase(iterator first, iterator last)`: returns (new state, the
iterator the loop stops at). -/
def erase_range (m : bidirectional_map α β bF bI) (first last : Option Nat) :
    bidirectional_map α β bF bI × Option Nat :=
  eraseRangeLoop m (m.map.length + 2) first last

/-- Member `clear()`: `map.clear(); inverseAccess->map.clear();`. -/
def clear (m : bidirectional_map α β bF bI) : bidirectional_map α β bF bI :=
  ⟨[], [], m.nextId⟩

/-- Member `contains(key)`: `find(key) != end()`. -/
def contains (m : bidirectional_map α β bF bI) (k : α) : Bool :=
  m.find k ≠ none

/-- Member `at(key)` (available only when the forward base container is not a
multimap): `find(key)`; on the end iterator, throw
`std::out_of_range("bidirectional map key not found")`; otherwise return
`res->second`.  The `ok` branch dereferencing a dangling pointer is unreachable
from well-formed states. -/
def at_ (m : bidirectional_map α β bF bI) (k : α) : Except String β :=
  match m.find k with
  | none => Except.error "bidirectional map key not found"
  | some p =>
    match keyOf? m.invMap p with
    | some b => Except.ok b
    | none => Except.error "invalid iterator"

/-- Member `swap(other)`: exchanges `this->map` with `other.map` and
`this->inverseAccess->map` with `other.inverseAccess->map` (the binder
relationships are untouched; node addresses travel with the nodes, which the
exchange of `nextId` renders). -/
def swapMaps (m other : bidirectional_map α β bF bI) :
    bidirectional_map α β bF bI × bidirectional_map α β bF bI :=
  (⟨other.map, other.invMap, other.nextId⟩, ⟨m.map, m.invMap, m.nextId⟩)

/-- Move constructor `bidirectional_map(bidirectional_map &&other)`: constructs
an empty container, then swaps with `other`.  Returns (the move-constructed
object, `other` after the move). -/
def moveCtor (other : bidirectional_map α β bF bI) :
    bidirectional_map α β bF bI × bidirectional_map α β bF bI :=
  swapMaps (emptyBimap α β bF bI) other

end bidirectional_map

/-- A public call on the container (through the forward view), with iterator
arguments rendered by their pair ids. -/
inductive BimapOp (α β : Type) where
  | emplaceOp (a : α) (b : β)
  | eraseIter (pos : Option Nat)
  | eraseByKey (k : α)
  | eraseByRange (first last : Option Nat)
  | clearAll

/-- Applying one public call to the container state. -/
def applyOp {α β : Type} [DecidableEq α] [DecidableEq β] {bF bI : Bool}
    (m : bidirectional_map α β bF bI) : BimapOp α β → bidirectional_map α β bF bI
  | BimapOp.emplaceOp a b => (m.emplace a b).1
  | BimapOp.eraseIter pos => (m.erase pos).1
  | BimapOp.eraseByKey k => (m.erase_key k).1
  | BimapOp.eraseByRange f l => (m.erase_range f l).1
  | BimapOp.clearAll => m.clear

/-- Running a sequence of public calls from a default-constructed container. -/
def runOps {α β : Type} [DecidableEq α] [DecidableEq β] (bF bI : Bool)
    (ops : List (BimapOp α β)) : bidirectional_map α β bF bI :=
  ops.foldl applyOp (bidirectional_map.emptyBimap α β bF bI)

/-- Running a sequence of `emplace` calls from a default-constructed
container. -/
def runEmplaces {α β : Type} [DecidableEq α] [DecidableEq β] (bF bI : Bool)
    (ps : List (α × β)) : bidirectional_map α β bF bI :=
  ps.foldl (fun m p => (m.emplace p.1 p.2).1) (bidirectional_map.emptyBimap α β bF bI)

/-- Well-formedness of a container state; established by construction and
preserved by every public call.  The conjuncts: pair ids are unique per store,
the two stores carry the same pair ids (each pair has exactly one slot in each
store), ids are below the fresh-id supply, and a store whose base container is
not a multimap has pairwise distinct keys. -/
def WF {α β : Type} {bF bI : Bool} (m : bidirectional_map α β bF bI) : Prop :=
  (pids m.map).Nodup ∧ (pids m.invMap).Nodup ∧
  (∀ p ∈ pids m.map, p ∈ pids m.invMap) ∧
  (∀ p ∈ pids m.invMap, p ∈ pids m.map) ∧
  (∀ p ∈ pids m.map, p < m.nextId) ∧
  (∀ p ∈ pids m.invMap, p < m.nextId) ∧
  (bF = false → (keyList m.map).Nodup) ∧
  (bI = false → (keyList m.invMap).Nodup)

instance {α β : Type} [DecidableEq α] [DecidableEq β] {bF bI : Bool}
    (m : bidirectional_map α β bF bI) : Decidable (WF m) := by
  unfold WF; infer_instance

section ListLemmas

variable {K : Type} [DecidableEq K]

theorem mem_pids {l : List (K × Nat)} {p : Nat} :
    p ∈ pids l ↔ ∃ e ∈ l, e.2 = p := by
  simp [pids, List.mem_map]

theorem mem_keyList {l : List (K × Nat)} {k : K} :
    k ∈ keyList l ↔ ∃ e ∈ l, e.1 = k := by
  simp [keyList, List.mem_map]

theorem findKey?_eq_none_iff (l : List (K × Nat)) (k : K) :
    findKey? l k = none ↔ ∀ e ∈ l, e.1 ≠ k := by
  induction l with
  | nil => simp [findKey?]
  | cons e rest ih =>
    by_cases h : e.1 = k
    · simp [findKey?, h]
    · simp [findKey?, h, ih]

theorem findKey?_mem {l : List (K × Nat)} {k : K} {p : Nat}
    (h : findKey? l k = some p) : (k, p) ∈ l := by
  induction l with
  | nil => simp [findKey?] at h
  | cons e rest ih =>
    by_cases he : e.1 = k
    · simp only [findKey?, he, if_pos, Option.some.injEq] at h
      cases e with
      | mk k' p' =>
        simp only at he h
        subst he; subst h; exact List.mem_cons_self _ _
    · simp only [findKey?, he, if_neg, not_false_iff] at h
      exact List.mem_cons_of_mem _ (ih h)

theorem findKey?_isSome_of_mem {l : List (K × Nat)} {k : K} {p : Nat}
    (h : (k, p) ∈ l) : ∃ q, findKey? l k = some q := by
  cases hq : findKey? l k with
  | some q => exact ⟨q, rfl⟩
  | none => exact absurd rfl ((findKey?_eq_none_iff l k).mp hq (k, p) h)

theorem findKey?_eq_of_keyNodup {l : List (K × Nat)} {k : K} {p : Nat}
    (hnd : (keyList l).Nodup) (hm : (k, p) ∈ l) : findKey? l k = some p := by
  induction l with
  | nil => simp at hm
  | cons e rest ih =>
    simp only [keyList, List.map_cons, List.nodup_cons] at hnd
    rcases List.mem_cons.mp hm with h | h
    · subst h; simp [findKey?]
    · have hk : k ∈ List.map Prod.fst rest := List.mem_map.mpr ⟨(k, p), h, rfl⟩
      have hne : e.1 ≠ k := fun hkk => hnd.1 (hkk ▸ hk)
      simpa [findKey?, hne] using ih hnd.2 h

theorem keyOf?_eq_none_iff (l : List (K × Nat)) (p : Nat) :
    keyOf? l p = none ↔ p ∉ pids l := by
  induction l with
  | nil => simp [keyOf?, pids]
  | cons e rest ih =>
    by_cases h : e.2 = p
    · simp [keyOf?, h, pids]
    · simp [keyOf?, h, ih, pids, Ne.symm h]

theorem keyOf?_mem {l : List (K × Nat)} {p : Nat} {k : K}
    (h : keyOf? l p = some k) : (k, p) ∈ l := by
  induction l with
  | nil => simp [keyOf?] at h
  | cons e rest ih =>
    by_cases he : e.2 = p
    · simp only [keyOf?, he, if_pos, Option.some.injEq] at h
      cases e with
      | mk k' p' =>
        simp only at he h
        subst he; subst h; exact List.mem_cons_self _ _
    · simp only [keyOf?, he, if_neg, not_false_iff] at h
      exact List.mem_cons_of_mem _ (ih h)

theorem keyOf?_eq_of_pidNodup {l : List (K × Nat)} {p : Nat} {k : K}
    (hnd : (pids l).Nodup) (hm : (k, p) ∈ l) : keyOf? l p = some k := by
  induction l with
  | nil => simp at hm
  | cons e rest ih =>
    simp only [pids, List.map_cons, List.nodup_cons] at hnd
    rcases List.mem_cons.mp hm with h | h
    · subst h; simp [keyOf?]
    · have hp : p ∈ List.map Prod.snd rest := List.mem_map.mpr ⟨(k, p), h, rfl⟩
      have hne : e.2 ≠ p := fun hpp => hnd.1 (hpp ▸ hp)
      simpa [keyOf?, hne] using ih hnd.2 h

theorem key_unique {l : List (K × Nat)} (hnd : (keyList l).Nodup)
    {e e' : K × Nat} (h1 : e ∈ l) (h2 : e' ∈ l) (hk : e.1 = e'.1) : e = e' := by
  induction l with
  | nil => simp at h1
  | cons f rest ih =>
    simp only [keyList, List.map_cons, List.nodup_cons] at hnd
    rcases List.mem_cons.mp h1 with ha | ha <;> rcases List.mem_cons.mp h2 with hb | hb
    · rw [ha, hb]
    · exact absurd (List.mem_map.mpr ⟨e', hb, by rw [← hk, ha]⟩) hnd.1
    · exact absurd (List.mem_map.mpr ⟨e, ha, by rw [hk, hb]⟩) hnd.1
    · exact ih hnd.2 ha hb

theorem insertAdj_perm (l : List (K × Nat)) (k : K) (p : Nat) :
    List.Perm (insertAdj l k p) ((k, p) :: l) := by
  induction l with
  | nil => simp [insertAdj]
  | cons e rest ih =>
    by_cases h : e.1 = k
    · simp [insertAdj, h]
    · simp only [insertAdj, h, if_neg, not_false_iff]
      exact (ih.cons e).trans (List.Perm.swap (k, p) e rest)

theorem insertAdj_append {l : List (K × Nat)} {k : K} {p : Nat}
    (h : ∀ e ∈ l, e.1 ≠ k) : insertAdj l k p = l ++ [(k, p)] := by
  induction l with
  | nil => rfl
  | cons e rest ih =>
    have he : e.1 ≠ k := h e (List.mem_cons_self _ _)
    simp only [insertAdj, he, if_neg, not_false_iff, List.cons_append, List.cons.injEq,
      true_and]
    exact ih fun e' he' => h e' (List.mem_cons_of_mem _ he')

theorem eraseId_sublist (l : List (K × Nat)) (p : Nat) :
    List.Sublist (eraseId l p) l := by
  induction l with
  | nil => simp [eraseId]
  | cons e rest ih =>
    by_cases h : e.2 = p
    · rw [eraseId, if_pos h]; exact List.sublist_cons_self e rest
    · rw [eraseId, if_neg h]; exact ih.cons₂ e

theorem eraseId_of_not_mem {l : List (K × Nat)} {p : Nat}
    (h : p ∉ pids l) : eraseId l p = l := by
  induction l with
  | nil => rfl
  | cons e rest ih =>
    simp only [pids, List.map_cons, List.mem_cons, not_or] at h
    have h1 : ¬ e.2 = p := fun hh => h.1 hh.symm
    simp [eraseId, h1, ih h.2]

theorem length_eraseId {l : List (K × Nat)} {p : Nat}
    (h : p ∈ pids l) : (eraseId l p).length + 1 = l.length := by
  induction l with
  | nil => simp [pids] at h
  | cons e rest ih =>
    by_cases he : e.2 = p
    · simp [eraseId, he]
    · simp only [pids, List.map_cons, List.mem_cons] at h
      rcases h with h | h
      · exact absurd h.symm he
      · simp only [eraseId, he, if_neg, not_false_iff, List.length_cons]
        rw [← ih (by simpa [pids] using h)]

theorem pids_eraseId (l : List (K × Nat)) (p : Nat) :
    pids (eraseId l p) = (pids l).erase p := by
  induction l with
  | nil => rfl
  | cons e rest ih =>
    by_cases he : e.2 = p
    · subst he; simp [eraseId, pids, List.erase_cons_head]
    · have ih' : List.map Prod.snd (eraseId rest p) = (List.map Prod.snd rest).erase p := ih
      simp [eraseId, he, pids, List.erase_cons, ih']

theorem mem_pids_eraseId {l : List (K × Nat)} (hnd : (pids l).Nodup) {p q : Nat} :
    q ∈ pids (eraseId l p) ↔ q ∈ pids l ∧ q ≠ p := by
  rw [pids_eraseId]
  constructor
  · intro h
    exact ⟨List.mem_of_mem_erase h, ((List.Nodup.mem_erase_iff hnd).mp h).1⟩
  · rintro ⟨h1, h2⟩
    exact (List.Nodup.mem_erase_iff hnd).mpr ⟨h2, h1⟩

theorem mem_of_mem_eraseId {l : List (K × Nat)} {p : Nat} {e : K × Nat}
    (h : e ∈ eraseId l p) : e ∈ l :=
  (eraseId_sublist l p).mem h

theorem nextOf_of_not_mem {l : List (K × Nat)} {p : Nat}
    (h : p ∉ pids l) : nextOf l p = none := by
  induction l with
  | nil => rfl
  | cons e rest ih =>
    simp only [pids, List.map_cons, List.mem_cons, not_or] at h
    have h1 : ¬ e.2 = p := fun hh => h.1 hh.symm
    simp [nextOf, h1, ih h.2]

theorem nextOf_append {pre suf : List (K × Nat)} {k : K} {p : Nat}
    (h : p ∉ pids pre) :
    nextOf (pre ++ (k, p) :: suf) p = suf.head?.map Prod.snd := by
  induction pre with
  | nil => simp [nextOf]
  | cons e rest ih =>
    simp only [pids, List.map_cons, List.mem_cons, not_or] at h
    have h1 : ¬ e.2 = p := fun hh => h.1 hh.symm
    simp only [List.cons_append, nextOf, if_neg h1]
    exact ih h.2

end ListLemmas

section StateLemmas

variable {α β : Type} [DecidableEq α] [DecidableEq β] {bF bI : Bool}

theorem emplace_fwd_conflict {m : bidirectional_map α β bF bI} {a : α} {b : β} {p : Nat}
    (h : (if bF then none else m.find a) = some p) :
    m.emplace a b = (m, some p, false) := by
  simp [bidirectional_map.emplace, h]

theorem emplace_inv_conflict {m : bidirectional_map α β bF bI} {a : α} {b : β} {p : Nat}
    (h1 : (if bF then none else m.find a) = none)
    (h2 : (if bI then none else findKey? m.invMap b) = some p) :
    m.emplace a b = (m, (keyOf? m.map p).bind (findKey? m.map), false) := by
  simp [bidirectional_map.emplace, h1, h2]

theorem emplace_insert {m : bidirectional_map α β bF bI} {a : α} {b : β}
    (h1 : (if bF then none else m.find a) = none)
    (h2 : (if bI then none else findKey? m.invMap b) = none) :
    m.emplace a b =
      (⟨insertAdj m.map a m.nextId, insertAdj m.invMap b m.nextId, m.nextId + 1⟩,
       some m.nextId, true) := by
  simp [bidirectional_map.emplace, h1, h2]

theorem emplace_true_spec {m : bidirectional_map α β bF bI} {a : α} {b : β}
    (h : (m.emplace a b).2.2 = true) :
    m.emplace a b =
      (⟨insertAdj m.map a m.nextId, insertAdj m.invMap b m.nextId, m.nextId + 1⟩,
       some m.nextId, true) := by
  cases h1 : (if bF then none else m.find a) with
  | some p => rw [emplace_fwd_conflict h1] at h; simp at h
  | none =>
    cases h2 : (if bI then none else findKey? m.invMap b) with
    | some p => rw [emplace_inv_conflict h1 h2] at h; simp at h
    | none => exact emplace_insert h1 h2

theorem erase_none_eq (m : bidirectional_map α β bF bI) : m.erase none = (m, none) := rfl

theorem erase_spec_mem {m : bidirectional_map α β bF bI} (hwf : WF m) {p : Nat}
    (hp : p ∈ pids m.map) :
    m.erase (some p) =
      (⟨eraseId m.map p, eraseId m.invMap p, m.nextId⟩, nextOf m.map p) := by
  obtain ⟨nd1, nd2, m12, m21, f1, f2, u1, u2⟩ := hwf
  have hpi : p ∈ pids m.invMap := m12 p hp
  obtain ⟨e, he, hep⟩ := mem_pids.mp hpi
  have hbe : (e.1, p) ∈ m.invMap := by rw [← hep, Prod.mk.eta]; exact he
  have hkey : keyOf? m.invMap p = some e.1 := keyOf?_eq_of_pidNodup nd2 hbe
  by_cases hbi : bI = true
  · simp [bidirectional_map.erase, hkey, if_pos hbi]
  · have hbf : bI = false := by simpa using hbi
    have hfind : findKey? m.invMap e.1 = some p :=
      findKey?_eq_of_keyNodup (u2 hbf) hbe
    simp [bidirectional_map.erase, hkey, if_neg hbi, hfind]

theorem erase_spec_not_mem {m : bidirectional_map α β bF bI} (hwf : WF m) {p : Nat}
    (hp : p ∉ pids m.map) :
    m.erase (some p) = (m, none) := by
  obtain ⟨nd1, nd2, m12, m21, _, _, _, _⟩ := hwf
  have hpi : p ∉ pids m.invMap := fun h => hp (m21 p h)
  have hkey : keyOf? m.invMap p = none := (keyOf?_eq_none_iff _ _).mpr hpi
  simp [bidirectional_map.erase, hkey]

theorem erase_shrink_or_stop (m : bidirectional_map α β bF bI) (p : Nat) :
    ((m.erase (some p)).2 = none ∧ (m.erase (some p)).1.map = m.map) ∨
    (m.erase (some p)).1.map.length + 1 = m.map.length := by
  cases hk : keyOf? m.invMap p with
  | none =>
    left
    simp [bidirectional_map.erase, hk]
  | some b =>
    have hmap : (m.erase (some p)).1.map = eraseId m.map p := by
      by_cases hbi : bI = true
      · simp [bidirectional_map.erase, hk, if_pos hbi]
      · cases hf : findKey? m.invMap b <;>
          simp [bidirectional_map.erase, hk, if_neg hbi, hf]
    have hsnd : (m.erase (some p)).2 = nextOf m.map p := by
      by_cases hbi : bI = true
      · simp [bidirectional_map.erase, hk, if_pos hbi]
      · cases hf : findKey? m.invMap b <;>
          simp [bidirectional_map.erase, hk, if_neg hbi, hf]
    by_cases hp : p ∈ pids m.map
    · right; rw [hmap]; exact length_eraseId hp
    · left
      rw [hsnd, hmap, eraseId_of_not_mem hp, nextOf_of_not_mem hp]
      exact ⟨rfl, rfl⟩

theorem wf_erase {m : bidirectional_map α β bF bI} (hwf : WF m) (pos : Option Nat) :
    WF (m.erase pos).1 := by
  cases pos with
  | none => exact hwf
  | some p =>
    by_cases hp : p ∈ pids m.map
    · rw [erase_spec_mem hwf hp]
      obtain ⟨nd1, nd2, m12, m21, f1, f2, u1, u2⟩ := hwf
      refine ⟨?_, ?_, ?_, ?_, ?_, ?_, ?_, ?_⟩
      · rw [pids_eraseId]; exact nd1.erase p
      · rw [pids_eraseId]; exact nd2.erase p
      · intro q hq
        obtain ⟨hq1, hq2⟩ := (mem_pids_eraseId nd1).mp hq
        exact (mem_pids_eraseId nd2).mpr ⟨m12 q hq1, hq2⟩
      · intro q hq
        obtain ⟨hq1, hq2⟩ := (mem_pids_eraseId nd2).mp hq
        exact (mem_pids_eraseId nd1).mpr ⟨m21 q hq1, hq2⟩
      · intro q hq; exact f1 q ((mem_pids_eraseId nd1).mp hq).1
      · intro q hq; exact f2 q ((mem_pids_eraseId nd2).mp hq).1
      · intro h; exact (u1 h).sublist ((eraseId_sublist _ _).map Prod.fst)
      · intro h; exact (u2 h).sublist ((eraseId_sublist _ _).map Prod.fst)
    · rw [erase_spec_not_mem hwf hp]; exact hwf

theorem wf_emplace {m : bidirectional_map α β bF bI} (hwf : WF m) (a : α) (b : β) :
    WF (m.emplace a b).1 := by
  cases h1 : (if bF then none else m.find a) with
  | some p => rw [emplace_fwd_conflict h1]; exact hwf
  | none =>
    cases h2 : (if bI then none else findKey? m.invMap b) with
    | some p => rw [emplace_inv_conflict h1 h2]; exact hwf
    | none =>
      rw [emplace_insert h1 h2]
      obtain ⟨nd1, nd2, m12, m21, f1, f2, u1, u2⟩ := hwf
      have permF : List.Perm (pids (insertAdj m.map a m.nextId)) (m.nextId :: pids m.map) :=
        (insertAdj_perm m.map a m.nextId).map Prod.snd
      have permI : List.Perm (pids (insertAdj m.invMap b m.nextId)) (m.nextId :: pids m.invMap) :=
        (insertAdj_perm m.invMap b m.nextId).map Prod.snd
      refine ⟨?_, ?_, ?_, ?_, ?_, ?_, ?_, ?_⟩
      · exact permF.nodup_iff.mpr
          (List.nodup_cons.mpr ⟨fun hmem => absurd (f1 _ hmem) (lt_irrefl _), nd1⟩)
      · exact permI.nodup_iff.mpr
          (List.nodup_cons.mpr ⟨fun hmem => absurd (f2 _ hmem) (lt_irrefl _), nd2⟩)
      · intro q hq
        rcases List.mem_cons.mp (permF.mem_iff.mp hq) with h | h
        · exact permI.mem_iff.mpr (List.mem_cons.mpr (Or.inl h))
        · exact permI.mem_iff.mpr (List.mem_cons.mpr (Or.inr (m12 q h)))
      · intro q hq
        rcases List.mem_cons.mp (permI.mem_iff.mp hq) with h | h
        · exact permF.mem_iff.mpr (List.mem_cons.mpr (Or.inl h))
        · exact permF.mem_iff.mpr (List.mem_cons.mpr (Or.inr (m21 q h)))
      · intro q hq
        rcases List.mem_cons.mp (permF.mem_iff.mp hq) with h | h
        · subst h; exact Nat.lt_succ_self _
        · exact Nat.lt_succ_of_lt (f1 q h)
      · intro q hq
        rcases List.mem_cons.mp (permI.mem_iff.mp hq) with h | h
        · subst h; exact Nat.lt_succ_self _
        · exact Nat.lt_succ_of_lt (f2 q h)
      · intro h
        rw [if_neg (by simp [h] : ¬ bF = true)] at h1
        simp only [bidirectional_map.find] at h1
        have hnotin : a ∉ keyList m.map := by
          intro hmem
          obtain ⟨e, he, hek⟩ := mem_keyList.mp hmem
          exact (findKey?_eq_none_iff m.map a).mp h1 e he hek
        have permFK : List.Perm (keyList (insertAdj m.map a m.nextId)) (a :: keyList m.map) :=
          (insertAdj_perm m.map a m.nextId).map Prod.fst
        exact permFK.nodup_iff.mpr (List.nodup_cons.mpr ⟨hnotin, u1 h⟩)
      · intro h
        rw [if_neg (by simp [h] : ¬ bI = true)] at h2
        have hnotin : b ∉ keyList m.invMap := by
          intro hmem
          obtain ⟨e, he, hek⟩ := mem_keyList.mp hmem
          exact (findKey?_eq_none_iff m.invMap b).mp h2 e he hek
        have permIK : List.Perm (keyList (insertAdj m.invMap b m.nextId)) (b :: keyList m.invMap) :=
          (insertAdj_perm m.invMap b m.nextId).map Prod.fst
        exact permIK.nodup_iff.mpr (List.nodup_cons.mpr ⟨hnotin, u2 h⟩)

theorem wf_eraseKeyLoop (fuel : Nat) :
    ∀ (m : bidirectional_map α β bF bI) (curr last : Option Nat) (n : Nat),
      WF m → WF (bidirectional_map.eraseKeyLoop m fuel curr last n).1 := by
  induction fuel with
  | zero => intro m c l n h; exact h
  | succ f ih =>
    intro m c l n h
    by_cases hc : c = l
    · simpa [bidirectional_map.eraseKeyLoop, hc] using h
    · simpa [bidirectional_map.eraseKeyLoop, hc] using ih _ _ _ _ (wf_erase h c)

theorem wf_eraseRangeLoop (fuel : Nat) :
    ∀ (m : bidirectional_map α β bF bI) (first last : Option Nat),
      WF m → WF (bidirectional_map.eraseRangeLoop m fuel first last).1 := by
  induction fuel with
  | zero => intro m fi l h; exact h
  | succ f ih =>
    intro m fi l h
    by_cases hg : fi = l ∨ fi = none
    · simpa [bidirectional_map.eraseRangeLoop, hg] using h
    · simpa [bidirectional_map.eraseRangeLoop, hg] using ih _ _ _ (wf_erase h fi)

theorem wf_clear (m : bidirectional_map α β bF bI) : WF m.clear := by
  simp [WF, bidirectional_map.clear, pids, keyList]

theorem wf_empty : WF (bidirectional_map.emptyBimap α β bF bI) := by
  simp [WF, bidirectional_map.emptyBimap, pids, keyList]

theorem wf_applyOp {m : bidirectional_map α β bF bI} (h : WF m) (op : BimapOp α β) :
    WF (applyOp m op) := by
  cases op with
  | emplaceOp a b => exact wf_emplace h a b
  | eraseIter pos => exact wf_erase h pos
  | eraseByKey k =>
    simp only [applyOp, bidirectional_map.erase_key]
    exact wf_eraseKeyLoop _ _ _ _ _ h
  | eraseByRange f l =>
    simp only [applyOp, bidirectional_map.erase_range]
    exact wf_eraseRangeLoop _ _ _ _ h
  | clearAll => exact wf_clear m

theorem wf_foldl_applyOp (ops : List (BimapOp α β)) :
    ∀ m : bidirectional_map α β bF bI, WF m → WF (ops.foldl applyOp m) := by
  induction ops with
  | nil => intro m h; exact h
  | cons o rest ih => intro m h; exact ih _ (wf_applyOp h o)

theorem wf_runOps (bF bI : Bool) (ops : List (BimapOp α β)) :
    WF (runOps bF bI ops) :=
  wf_foldl_applyOp ops _ wf_empty

theorem wf_foldl_emplace (ps : List (α × β)) :
    ∀ m : bidirectional_map α β bF bI,
      WF m → WF (ps.foldl (fun m p => (m.emplace p.1 p.2).1) m) := by
  induction ps with
  | nil => intro m h; exact h
  | cons q rest ih => intro m h; exact ih _ (wf_emplace h q.1 q.2)

theorem wf_runEmplaces (bF bI : Bool) (ps : List (α × β)) :
    WF (runEmplaces bF bI ps) :=
  wf_foldl_emplace ps _ wf_empty

theorem wf_size_eq {m : bidirectional_map α β bF bI} (hwf : WF m) :
    m.map.length = m.invMap.length := by
  obtain ⟨nd1, nd2, m12, m21, _, _, _, _⟩ := hwf
  have hperm : List.Perm (pids m.map) (pids m.invMap) :=
    (List.perm_ext_iff_of_nodup nd1 nd2).mpr fun q => ⟨m12 q, m21 q⟩
  simpa [pids] using hperm.length_eq

theorem eraseRangeLoop_stop (m : bidirectional_map α β bF bI) (fuel : Nat)
    {first last : Option Nat} (hg : first = last ∨ first = none) :
    bidirectional_map.eraseRangeLoop m (fuel + 1) first last = (m, first) := by
  simp [bidirectional_map.eraseRangeLoop, hg]

theorem eraseRangeLoop_result (fuel : Nat) :
    ∀ (m : bidirectional_map α β bF bI) (first last : Option Nat),
      m.map.length + 2 ≤ fuel →
      (bidirectional_map.eraseRangeLoop m fuel first last).2 = last ∨
      (bidirectional_map.eraseRangeLoop m fuel first last).2 = none := by
  induction fuel with
  | zero => intro m first last h; omega
  | succ f ih =>
    intro m first last h
    by_cases hg : first = last ∨ first = none
    · rw [eraseRangeLoop_stop m f hg]
      exact hg
    · push_neg at hg
      obtain ⟨hne, hnn⟩ := hg
      cases first with
      | none => exact absurd rfl hnn
      | some p =>
        have hstep :
            bidirectional_map.eraseRangeLoop m (f + 1) (some p) last =
              bidirectional_map.eraseRangeLoop (m.erase (some p)).1 f
                (m.erase (some p)).2 last := by
          simp [bidirectional_map.eraseRangeLoop, hne]
        rw [hstep]
        rcases erase_shrink_or_stop m p with ⟨hsn, hsm⟩ | hlen
        · rw [hsn]
          have hf1 : 1 ≤ f := by omega
          obtain ⟨g, rfl⟩ : ∃ g, f = g + 1 := ⟨f - 1, by omega⟩
          rw [eraseRangeLoop_stop _ g (Or.inr rfl)]
          right; rfl
        · exact ih _ _ _ (by omega)

theorem pairPresent_intro {m : bidirectional_map α β bF bI} {a : α} {b : β} {p : Nat}
    (h1 : (a, p) ∈ m.map) (h2 : (b, p) ∈ m.invMap) : m.pairPresent a b :=
  ⟨(a, p), h1, rfl, h2⟩

theorem wf_inverse {m : bidirectional_map α β bF bI} (hwf : WF m) : WF m.inverse := by
  obtain ⟨nd1, nd2, m12, m21, f1, f2, u1, u2⟩ := hwf
  exact ⟨nd2, nd1, m21, m12, f2, f1, u2, u1⟩

theorem roundtrip_of_wf {m : bidirectional_map α β false false} (hwf : WF m)
    {a : α} {b : β} (hab : m.pairPresent a b) :
    m.findSnd a = some b ∧ m.inverse.findSnd b = some a := by
  obtain ⟨nd1, nd2, m12, m21, f1, f2, u1, u2⟩ := hwf
  obtain ⟨e, he, hek, hbi⟩ := hab
  have hae : (a, e.2) ∈ m.map := by rw [← hek, Prod.mk.eta]; exact he
  have hfind : findKey? m.map a = some e.2 := findKey?_eq_of_keyNodup (u1 rfl) hae
  have hkey : keyOf? m.invMap e.2 = some b := keyOf?_eq_of_pidNodup nd2 hbi
  have hfindI : findKey? m.invMap b = some e.2 := findKey?_eq_of_keyNodup (u2 rfl) hbi
  have hkeyF : keyOf? m.map e.2 = some a := keyOf?_eq_of_pidNodup nd1 hae
  constructor
  · simp [bidirectional_map.findSnd, bidirectional_map.find, hfind, hkey]
  · simp [bidirectional_map.findSnd, bidirectional_map.find, bidirectional_map.inverse,
      hfindI, hkeyF]

end StateLemmas

example :
    (runEmplaces (α := Nat) (β := Nat) false false [(1, 2)]).size = 1 := by decide

example :
    ((runEmplaces (α := Nat) (β := Nat) false false [(1, 2), (1, 3)]).emplace 1 4).2.2
      = false := by decide

example : WF (runEmplaces (α := Nat) (β := Nat) false false [(1, 2), (3, 4)]) := by
  decide

/-!
The claims.  Container states written `bidirectional_map α β false false` are
instantiations over unique-key base containers (the default
`std::unordered_map` for both directions); the Booleans are the `is_multimap`
traits of the two base container types.
-/

/-- C1: for every bidirectional_map over unique-key base containers and every
argument pair (a, b): if a pair with forward key a or a pair with inverse key b
already exists, emplace(a, b) performs no insertion, leaves the container
unchanged, and returns (an iterator to the conflicting pre-existing pair,
false); otherwise it inserts (a, b) into both stores and returns (an iterator
to the newly inserted pair, true). -/
theorem c1_emplace {α β : Type} [DecidableEq α] [DecidableEq β]
    (m : bidirectional_map α β false false) (hwf : WF m) (a : α) (b : β) :
    (((∃ e ∈ m.map, e.1 = a) ∨ (∃ e ∈ m.invMap, e.1 = b)) →
      (m.emplace a b).1 = m ∧ (m.emplace a b).2.2 = false ∧
      ∃ p, (m.emplace a b).2.1 = some p ∧ p ∈ pids m.map ∧
        (m.derefFst p = some a ∨ m.derefSnd p = some b)) ∧
    ((∀ e ∈ m.map, e.1 ≠ a) → (∀ e ∈ m.invMap, e.1 ≠ b) →
      (m.emplace a b).1.map = m.map ++ [(a, m.nextId)] ∧
      (m.emplace a b).1.invMap = m.invMap ++ [(b, m.nextId)] ∧
      (m.emplace a b).2.1 = some m.nextId ∧ (m.emplace a b).2.2 = true) := by
  obtain ⟨nd1, nd2, m12, m21, f1, f2, u1, u2⟩ := hwf
  constructor
  · intro hconf
    by_cases hfa : ∃ e ∈ m.map, e.1 = a
    · obtain ⟨e, he, hek⟩ := hfa
      have hae : (a, e.2) ∈ m.map := by rw [← hek, Prod.mk.eta]; exact he
      have hfind : findKey? m.map a = some e.2 := findKey?_eq_of_keyNodup (u1 rfl) hae
      have hc : (if (false : Bool) = true then none else m.find a) = some e.2 := by
        simp [bidirectional_map.find, hfind]
      rw [emplace_fwd_conflict hc]
      refine ⟨rfl, rfl, ⟨e.2, rfl, ?_, Or.inl ?_⟩⟩
      · exact mem_pids.mpr ⟨(a, e.2), hae, rfl⟩
      · exact keyOf?_eq_of_pidNodup nd1 hae
    · obtain ⟨e, he, hek⟩ := hconf.resolve_left hfa
      have hbe : (b, e.2) ∈ m.invMap := by rw [← hek, Prod.mk.eta]; exact he
      have hfindI : findKey? m.invMap b = some e.2 := findKey?_eq_of_keyNodup (u2 rfl) hbe
      have hfa' : ∀ e' ∈ m.map, e'.1 ≠ a := fun e' he' hek' => hfa ⟨e', he', hek'⟩
      have hfindA : findKey? m.map a = none := (findKey?_eq_none_iff _ _).mpr hfa'
      have hpf : e.2 ∈ pids m.map := m21 e.2 (mem_pids.mpr ⟨_, hbe, rfl⟩)
      obtain ⟨e', he', hep'⟩ := mem_pids.mp hpf
      have hae' : (e'.1, e.2) ∈ m.map := by rw [← hep', Prod.mk.eta]; exact he'
      have hkeyF : keyOf? m.map e.2 = some e'.1 := keyOf?_eq_of_pidNodup nd1 hae'
      have hfindA' : findKey? m.map e'.1 = some e.2 :=
        findKey?_eq_of_keyNodup (u1 rfl) hae'
      have hc1 : (if (false : Bool) = true then none else m.find a) = none := by
        simp [bidirectional_map.find, hfindA]
      have hc2 : (if (false : Bool) = true then none else findKey? m.invMap b)
          = some e.2 := by
        simp [hfindI]
      rw [emplace_inv_conflict hc1 hc2]
      refine ⟨rfl, rfl, ⟨e.2, ?_, hpf, Or.inr ?_⟩⟩
      · simp [hkeyF, hfindA']
      · exact keyOf?_eq_of_pidNodup nd2 hbe
  · intro hna hnb
    have hA : findKey? m.map a = none := (findKey?_eq_none_iff _ _).mpr hna
    have hB : findKey? m.invMap b = none := (findKey?_eq_none_iff _ _).mpr hnb
    rw [emplace_insert (by simp [bidirectional_map.find, hA]) (by simp [hB])]
    exact ⟨insertAdj_append hna, insertAdj_append hnb, rfl, rfl⟩

theorem c1_emplace_witness :
    (((⟨[(0, 0)], [(5, 0)], 1⟩ : bidirectional_map Nat Nat false false).emplace 0 7).1
        = (⟨[(0, 0)], [(5, 0)], 1⟩ : bidirectional_map Nat Nat false false) ∧
      ((⟨[(0, 0)], [(5, 0)], 1⟩ :
          bidirectional_map Nat Nat false false).emplace 0 7).2.2 = false) ∧
    ((⟨[(0, 0)], [(5, 0)], 1⟩ :
        bidirectional_map Nat Nat false false).emplace 1 7).2.2 = true :=
  ⟨⟨((c1_emplace ⟨[(0, 0)], [(5, 0)], 1⟩ (by decide) 0 7).1 (Or.inl (by decide))).1,
    ((c1_emplace ⟨[(0, 0)], [(5, 0)], 1⟩ (by decide) 0 7).1 (Or.inl (by decide))).2.1⟩,
   ((c1_emplace ⟨[(0, 0)], [(5, 0)], 1⟩ (by decide) 1 7).2 (by decide) (by decide)).2.2.2⟩

/-- C2: for every sequence of public operations (emplace, erase by iterator,
by key, or by range, clear) run from an empty bidirectional_map — with any
base-container kinds — the forward store and the inverse store contain the same
number of elements after every call: size() equals inverse().size(). -/
theorem c2_cardinality {α β : Type} [DecidableEq α] [DecidableEq β] (bF bI : Bool)
    (ops : List (BimapOp α β)) :
    (runOps bF bI ops).size = ((runOps bF bI ops).inverse).size :=
  wf_size_eq (wf_runOps bF bI ops)

/-- C3: over the default unique-key base containers, for every pair (a, b)
stored in the container after a sequence of public calls (inserted and not
subsequently erased), find(a) dereferences to inverse key b and
inverse().find(b) dereferences to forward key a. -/
theorem c3_roundtrip {α β : Type} [DecidableEq α] [DecidableEq β]
    (ops : List (BimapOp α β)) (a : α) (b : β)
    (h : (runOps false false ops).pairPresent a b) :
    (runOps false false ops).findSnd a = some b ∧
    ((runOps false false ops).inverse).findSnd b = some a :=
  roundtrip_of_wf (wf_runOps false false ops) h

theorem c3_roundtrip_witness :
    (runOps (α := Nat) (β := Nat) false false [BimapOp.emplaceOp 1 2]).findSnd 1
        = some 2 ∧
    ((runOps (α := Nat) (β := Nat) false false [BimapOp.emplaceOp 1 2]).inverse).findSnd 2
        = some 1 :=
  c3_roundtrip [BimapOp.emplaceOp 1 2] 1 2 (by decide)

/-- C8: over unique-key base containers, at(key) returns the inverse key mapped
to key whenever a pair with that forward key is present, and returns the
distinct out_of_range condition ("bidirectional map key not found") exactly
when no such pair exists; at is a pure lookup (the state is not part of its
result), and find on an absent key returns the end iterator instead of
signalling. -/
theorem c8_at {α β : Type} [DecidableEq α] [DecidableEq β]
    (m : bidirectional_map α β false false) (hwf : WF m) (k : α) :
    (∀ b : β, m.pairPresent k b → m.at_ k = Except.ok b) ∧
    ((∀ e ∈ m.map, e.1 ≠ k) ↔
      m.at_ k = Except.error "bidirectional map key not found") ∧
    ((∀ e ∈ m.map, e.1 ≠ k) → m.find k = none) := by
  obtain ⟨nd1, nd2, m12, m21, f1, f2, u1, u2⟩ := hwf
  refine ⟨?_, ⟨?_, ?_⟩, ?_⟩
  · intro b hab
    obtain ⟨e, he, hek, hbi⟩ := hab
    have hae : (k, e.2) ∈ m.map := by rw [← hek, Prod.mk.eta]; exact he
    have hfind : findKey? m.map k = some e.2 := findKey?_eq_of_keyNodup (u1 rfl) hae
    have hkey : keyOf? m.invMap e.2 = some b := keyOf?_eq_of_pidNodup nd2 hbi
    simp [bidirectional_map.at_, bidirectional_map.find, hfind, hkey]
  · intro habs
    have hfind : findKey? m.map k = none := (findKey?_eq_none_iff _ _).mpr habs
    simp [bidirectional_map.at_, bidirectional_map.find, hfind]
  · intro herr e he hek
    have hae : (k, e.2) ∈ m.map := by rw [← hek, Prod.mk.eta]; exact he
    have hfind : findKey? m.map k = some e.2 := findKey?_eq_of_keyNodup (u1 rfl) hae
    have hp : e.2 ∈ pids m.invMap := m12 e.2 (mem_pids.mpr ⟨(k, e.2), hae, rfl⟩)
    obtain ⟨e', he', hep⟩ := mem_pids.mp hp
    have hbe : (e'.1, e.2) ∈ m.invMap := by rw [← hep, Prod.mk.eta]; exact he'
    have hkey : keyOf? m.invMap e.2 = some e'.1 := keyOf?_eq_of_pidNodup nd2 hbe
    simp [bidirectional_map.at_, bidirectional_map.find, hfind, hkey] at herr
  · intro habs
    show findKey? m.map k = none
    exact (findKey?_eq_none_iff _ _).mpr habs

theorem c8_at_witness :
    (⟨[(3, 0)], [(9, 0)], 1⟩ : bidirectional_map Nat Nat false false).at_ 3
        = Except.ok 9 ∧
    (⟨[(3, 0)], [(9, 0)], 1⟩ : bidirectional_map Nat Nat false false).at_ 4
        = Except.error "bidirectional map key not found" ∧
    (⟨[(3, 0)], [(9, 0)], 1⟩ : bidirectional_map Nat Nat false false).find 4 = none :=
  ⟨(c8_at ⟨[(3, 0)], [(9, 0)], 1⟩ (by decide) 3).1 9 (by decide),
   (c8_at ⟨[(3, 0)], [(9, 0)], 1⟩ (by decide) 4).2.1.mp (by decide),
   (c8_at ⟨[(3, 0)], [(9, 0)], 1⟩ (by decide) 4).2.2 (by decide)⟩

/-- C9: over unique-key base containers, when emplace(a, b) conflicts on both
keys in two distinct existing pairs (a, b') and (a', b), the forward-key check
takes precedence: the call returns (an iterator to the pair (a, b'), false) and
leaves the container unchanged. -/
theorem c9_precedence {α β : Type} [DecidableEq α] [DecidableEq β]
    (m : bidirectional_map α β false false) (hwf : WF m)
    (a a' : α) (b b' : β)
    (hab' : m.pairPresent a b') (ha'b : m.pairPresent a' b)
    (hbb : b' ≠ b) (haa : a' ≠ a) :
    (m.emplace a b).1 = m ∧ (m.emplace a b).2.2 = false ∧
    ∃ p, (m.emplace a b).2.1 = some p ∧
      m.derefFst p = some a ∧ m.derefSnd p = some b' := by
  obtain ⟨nd1, nd2, m12, m21, f1, f2, u1, u2⟩ := hwf
  obtain ⟨e, he, hek, hbi⟩ := hab'
  have hae : (a, e.2) ∈ m.map := by rw [← hek, Prod.mk.eta]; exact he
  have hfind : findKey? m.map a = some e.2 := findKey?_eq_of_keyNodup (u1 rfl) hae
  have hc : (if (false : Bool) = true then none else m.find a) = some e.2 := by
    simp [bidirectional_map.find, hfind]
  rw [emplace_fwd_conflict hc]
  refine ⟨rfl, rfl, ⟨e.2, rfl, ?_, ?_⟩⟩
  · exact keyOf?_eq_of_pidNodup nd1 hae
  · exact keyOf?_eq_of_pidNodup nd2 hbi

theorem c9_precedence_witness :
    ((⟨[(0, 10), (2, 11)], [(1, 10), (3, 11)], 12⟩ :
        bidirectional_map Nat Nat false false).emplace 0 3).1
      = (⟨[(0, 10), (2, 11)], [(1, 10), (3, 11)], 12⟩ :
          bidirectional_map Nat Nat false false) ∧
    ((⟨[(0, 10), (2, 11)], [(1, 10), (3, 11)], 12⟩ :
        bidirectional_map Nat Nat false false).emplace 0 3).2.2 = false ∧
    ∃ p, ((⟨[(0, 10), (2, 11)], [(1, 10), (3, 11)], 12⟩ :
        bidirectional_map Nat Nat false false).emplace 0 3).2.1 = some p ∧
      (⟨[(0, 10), (2, 11)], [(1, 10), (3, 11)], 12⟩ :
        bidirectional_map Nat Nat false false).derefFst p = some 0 ∧
      (⟨[(0, 10), (2, 11)], [(1, 10), (3, 11)], 12⟩ :
        bidirectional_map Nat Nat false false).derefSnd p = some 1 :=
  c9_precedence ⟨[(0, 10), (2, 11)], [(1, 10), (3, 11)], 12⟩ (by decide) 0 2 3 1
    (by decide) (by decide) (by decide) (by decide)

/-- C4: over the default unique-key base containers, for every positioned
(non-end) iterator at the stored pair (a, b) — pair id p — erase removes that
pair from both the forward store and the inverse store (afterwards forward key
a is not found by find and inverse key b is not found by inverse().find) and
returns the iterator to the next element of the forward store; erase(end()) is
a no-op that returns end() and leaves both stores unchanged. -/
theorem c4_erase {α β : Type} [DecidableEq α] [DecidableEq β]
    (m : bidirectional_map α β false false) (hwf : WF m)
    (a : α) (b : β) (p : Nat) (hf : (a, p) ∈ m.map) (hi : (b, p) ∈ m.invMap) :
    ((m.erase (some p)).1.map.length + 1 = m.map.length ∧
     (m.erase (some p)).1.invMap.length + 1 = m.invMap.length) ∧
    (m.erase (some p)).1.find a = none ∧
    ((m.erase (some p)).1.inverse).find b = none ∧
    (∀ pre suf, m.map = pre ++ (a, p) :: suf →
        (m.erase (some p)).2 = suf.head?.map Prod.snd) ∧
    m.erase none = (m, none) := by
  have hpm : p ∈ pids m.map := mem_pids.mpr ⟨(a, p), hf, rfl⟩
  have hpi : p ∈ pids m.invMap := mem_pids.mpr ⟨(b, p), hi, rfl⟩
  have hspec := erase_spec_mem hwf hpm
  obtain ⟨nd1, nd2, m12, m21, f1, f2, u1, u2⟩ := hwf
  rw [hspec]
  refine ⟨⟨?_, ?_⟩, ?_, ?_, ?_, rfl⟩
  · exact length_eraseId hpm
  · exact length_eraseId hpi
  · show findKey? (eraseId m.map p) a = none
    apply (findKey?_eq_none_iff _ _).mpr
    intro e he hek
    have hmem : e ∈ m.map := mem_of_mem_eraseId he
    have heq : e = (a, p) := key_unique (u1 rfl) hmem hf (by rw [hek])
    have hnp : e.2 ≠ p :=
      ((mem_pids_eraseId nd1).mp (mem_pids.mpr ⟨e, he, rfl⟩)).2
    rw [heq] at hnp
    exact hnp rfl
  · show findKey? (eraseId m.invMap p) b = none
    apply (findKey?_eq_none_iff _ _).mpr
    intro e he hek
    have hmem : e ∈ m.invMap := mem_of_mem_eraseId he
    have heq : e = (b, p) := key_unique (u2 rfl) hmem hi (by rw [hek])
    have hnp : e.2 ≠ p :=
      ((mem_pids_eraseId nd2).mp (mem_pids.mpr ⟨e, he, rfl⟩)).2
    rw [heq] at hnp
    exact hnp rfl
  · intro pre suf hdec
    show nextOf m.map p = suf.head?.map Prod.snd
    have hnpre : p ∉ pids pre := by
      intro hp
      rw [hdec] at nd1
      simp only [pids, List.map_append, List.map_cons] at nd1
      rcases List.nodup_append.mp nd1 with ⟨hn1, hn2, hdisj⟩
      exact hdisj (by simpa [pids] using hp) (List.mem_cons_self _ _)
    rw [hdec]
    exact nextOf_append hnpre

theorem c4_erase_witness :
    (((⟨[(0, 0), (1, 1)], [(5, 0), (6, 1)], 2⟩ :
        bidirectional_map Nat Nat false false).erase (some 0)).1.find 0 = none) ∧
    ((((⟨[(0, 0), (1, 1)], [(5, 0), (6, 1)], 2⟩ :
        bidirectional_map Nat Nat false false).erase (some 0)).1.inverse).find 5
      = none) :=
  ⟨(c4_erase ⟨[(0, 0), (1, 1)], [(5, 0), (6, 1)], 2⟩ (by decide) 0 5 0
      (by decide) (by decide)).2.1,
   (c4_erase ⟨[(0, 0), (1, 1)], [(5, 0), (6, 1)], 2⟩ (by decide) 0 5 0
      (by decide) (by decide)).2.2.1⟩

/-- C5: m.inverse().inverse() refers to the same underlying data as m, not a
copy: the embedding renders the two views of the one shared pair of stores as a
single state value, on which taking the inverse view is an involution; and
every mutation through either view is immediately visible through the other —
a successful emplace through the inverse view is present in the original view
and conversely; erasing a stored pair through the inverse view produces, seen
through the original view, exactly the state of erasing it directly (and
conversely), in particular that pair's slot is gone from both stores and the
size seen through the original view has dropped by one; and clear through the
inverse view clears the original. -/
theorem c5_inverse_identity {α β : Type} [DecidableEq α] [DecidableEq β]
    (bF bI : Bool) :
    (∀ m : bidirectional_map α β bF bI, m.inverse.inverse = m) ∧
    (∀ (m : bidirectional_map α β bF bI) (a : α) (b : β),
      ((m.inverse.emplace b a).2.2 = true →
        ((m.inverse.emplace b a).1.inverse).pairPresent a b) ∧
      ((m.emplace a b).2.2 = true →
        ((m.emplace a b).1.inverse).pairPresent b a)) ∧
    (∀ (m : bidirectional_map α β bF bI) (p : Nat), WF m → p ∈ pids m.map →
      (m.inverse.erase (some p)).1.inverse = (m.erase (some p)).1 ∧
      (m.erase (some p)).1.inverse = (m.inverse.erase (some p)).1 ∧
      p ∉ pids ((m.inverse.erase (some p)).1.inverse).map ∧
      p ∉ pids ((m.inverse.erase (some p)).1.inverse).invMap ∧
      ((m.inverse.erase (some p)).1.inverse).size + 1 = m.size) ∧
    (∀ m : bidirectional_map α β bF bI, m.inverse.clear.inverse = m.clear) := by
  refine ⟨?_, ?_, ?_, ?_⟩
  · intro m; cases m; rfl
  · intro m a b
    constructor
    · intro h
      rw [emplace_true_spec h]
      exact pairPresent_intro
        ((insertAdj_perm m.map a m.nextId).mem_iff.mpr (List.mem_cons_self _ _))
        ((insertAdj_perm m.invMap b m.nextId).mem_iff.mpr (List.mem_cons_self _ _))
    · intro h
      rw [emplace_true_spec h]
      exact pairPresent_intro
        ((insertAdj_perm m.invMap b m.nextId).mem_iff.mpr (List.mem_cons_self _ _))
        ((insertAdj_perm m.map a m.nextId).mem_iff.mpr (List.mem_cons_self _ _))
  · intro m p hwf hp
    have hpi : p ∈ pids m.invMap := hwf.2.2.1 p hp
    have h1 := erase_spec_mem hwf hp
    have h2 := erase_spec_mem (wf_inverse hwf) (show p ∈ pids m.inverse.map from hpi)
    have nd1 : (pids m.map).Nodup := hwf.1
    have nd2 : (pids m.invMap).Nodup := hwf.2.1
    refine ⟨?_, ?_, ?_, ?_, ?_⟩
    · rw [h1, h2]; rfl
    · rw [h1, h2]; rfl
    · rw [h2]
      intro hmem
      exact ((mem_pids_eraseId nd1).mp hmem).2 rfl
    · rw [h2]
      intro hmem
      exact ((mem_pids_eraseId nd2).mp hmem).2 rfl
    · rw [h2]
      show (eraseId m.map p).length + 1 = m.map.length
      exact length_eraseId hp
  · intro m; cases m; rfl

theorem c5_inverse_identity_witness :
    ((⟨[(1, 0)], [(2, 0)], 1⟩ :
        bidirectional_map Nat Nat false false).inverse.inverse
      = (⟨[(1, 0)], [(2, 0)], 1⟩ : bidirectional_map Nat Nat false false)) ∧
    (((⟨[(1, 0)], [(2, 0)], 1⟩ :
        bidirectional_map Nat Nat false false).inverse.emplace 7 3).1.inverse).pairPresent
      3 7 ∧
    ((⟨[(1, 0)], [(2, 0)], 1⟩ :
        bidirectional_map Nat Nat false false).inverse.erase (some 0)).1.inverse
      = ((⟨[(1, 0)], [(2, 0)], 1⟩ :
          bidirectional_map Nat Nat false false).erase (some 0)).1 :=
  ⟨(c5_inverse_identity false false).1 ⟨[(1, 0)], [(2, 0)], 1⟩,
   ((c5_inverse_identity false false).2.1 ⟨[(1, 0)], [(2, 0)], 1⟩ 3 7).1 (by decide),
   ((c5_inverse_identity false false).2.2.1 ⟨[(1, 0)], [(2, 0)], 1⟩ 0
      (by decide) (by decide)).1⟩

/-- C6: the uniqueness check of emplace is relaxed per direction independently:
after any sequence of emplace calls from an empty container the forward store
holds pairwise distinct forward keys whenever its base container is not a
multimap, and likewise for the inverse store (so with the default unique-key
bases no two pairs ever share a forward key or an inverse key), while a
multi-valued base container on either side — whatever the other side is —
admits an emplace sequence after which two stored pairs share a key on exactly
that side. -/
theorem c6_multimap_relaxation {α β : Type} [DecidableEq α] [DecidableEq β] :
    (∀ (bI : Bool) (ps : List (α × β)),
        (keyList (runEmplaces false bI ps).map).Nodup) ∧
    (∀ (bF : Bool) (ps : List (α × β)),
        (keyList (runEmplaces bF false ps).invMap).Nodup) ∧
    (∀ bI : Bool,
        ¬ (keyList
            (runEmplaces (α := Nat) (β := Nat) true bI [(0, 0), (0, 1)]).map).Nodup) ∧
    (∀ bF : Bool,
        ¬ (keyList
            (runEmplaces (α := Nat) (β := Nat) bF true [(0, 0), (1, 0)]).invMap).Nodup) := by
  refine ⟨?_, ?_, ?_, ?_⟩
  · intro bI ps
    obtain ⟨_, _, _, _, _, _, u1, _⟩ := wf_runEmplaces false bI ps
    exact u1 rfl
  · intro bF ps
    obtain ⟨_, _, _, _, _, _, _, u2⟩ := wf_runEmplaces bF false ps
    exact u2 rfl
  · intro bI; cases bI <;> decide
  · intro bF; cases bF <;> decide

theorem c6_multimap_relaxation_witness :
    (keyList (runEmplaces (α := Nat) (β := Nat) false false [(1, 2), (3, 4)]).map).Nodup ∧
    ¬ (keyList
        (runEmplaces (α := Nat) (β := Nat) true false [(0, 0), (0, 1)]).map).Nodup :=
  ⟨(c6_multimap_relaxation (α := Nat) (β := Nat)).1 false [(1, 2), (3, 4)],
   (c6_multimap_relaxation (α := Nat) (β := Nat)).2.2.1 false⟩

/-- C7: after move-construction, the moved-to container holds exactly the pairs
the source held before the move, while the source is empty and remains usable:
a subsequent emplace(x, y) on it succeeds (reports inserted true and stores the
pair), and — the two containers no longer sharing storage — the new pair is not
visible in the moved-to container when it was absent before the move. -/
theorem c7_move {α β : Type} [DecidableEq α] [DecidableEq β] {bF bI : Bool}
    (m : bidirectional_map α β bF bI) (x : α) (y : β) :
    m.moveCtor.1 = m ∧
    m.moveCtor.2.size = 0 ∧ m.moveCtor.2.inverse.size = 0 ∧
    (m.moveCtor.2.emplace x y).2.2 = true ∧
    (m.moveCtor.2.emplace x y).1.pairPresent x y ∧
    (¬ m.pairPresent x y → ¬ m.moveCtor.1.pairPresent x y) := by
  have h1 : m.moveCtor.1 = m := by cases m; rfl
  have hc1 : (if bF = true then none
      else (⟨[], [], 0⟩ : bidirectional_map α β bF bI).find x) = none := by
    by_cases h : bF = true
    · rw [if_pos h]
    · rw [if_neg h]; rfl
  have hc2 : (if bI = true then none
      else findKey? (⟨[], [], 0⟩ : bidirectional_map α β bF bI).invMap y) = none := by
    by_cases h : bI = true
    · rw [if_pos h]
    · rw [if_neg h]; rfl
  have hm2 : m.moveCtor.2 = (⟨[], [], 0⟩ : bidirectional_map α β bF bI) := rfl
  refine ⟨h1, rfl, rfl, ?_, ?_, ?_⟩
  · rw [hm2, emplace_insert hc1 hc2]
  · rw [hm2, emplace_insert hc1 hc2]
    exact pairPresent_intro (List.mem_cons_self _ _) (List.mem_cons_self _ _)
  · intro h
    rwa [h1]

theorem c7_move_witness :
    ((⟨[(1, 0)], [(2, 0)], 1⟩ :
        bidirectional_map Nat Nat false false).moveCtor.1
      = (⟨[(1, 0)], [(2, 0)], 1⟩ : bidirectional_map Nat Nat false false)) ∧
    ((⟨[(1, 0)], [(2, 0)], 1⟩ :
        bidirectional_map Nat Nat false false).moveCtor.2.emplace 5 6).2.2 = true ∧
    ¬ (⟨[(1, 0)], [(2, 0)], 1⟩ :
        bidirectional_map Nat Nat false false).moveCtor.1.pairPresent 5 6 :=
  ⟨(c7_move ⟨[(1, 0)], [(2, 0)], 1⟩ 5 6).1,
   (c7_move ⟨[(1, 0)], [(2, 0)], 1⟩ 5 6).2.2.2.1,
   (c7_move ⟨[(1, 0)], [(2, 0)], 1⟩ 5 6).2.2.2.2.2 (by decide)⟩

/-- C10: erase(first, last) never erases through or dereferences the end
sentinel: for any two iterators of the container the loop stops as soon as
first equals last or first equals end() — immediately returning first in that
case — and the call terminates returning either last (when reached) or end(),
even when last does not lie after first in iteration order. -/
theorem c10_erase_range {α β : Type} [DecidableEq α] [DecidableEq β] {bF bI : Bool}
    (m : bidirectional_map α β bF bI) (first last : Option Nat) :
    ((first = last ∨ first = none) → m.erase_range first last = (m, first)) ∧
    ((m.erase_range first last).2 = last ∨ (m.erase_range first last).2 = none) := by
  constructor
  · intro hg
    show bidirectional_map.eraseRangeLoop m (m.map.length + 2) first last = (m, first)
    have h2 : m.map.length + 2 = (m.map.length + 1) + 1 := rfl
    rw [h2, eraseRangeLoop_stop m (m.map.length + 1) hg]
  · exact eraseRangeLoop_result (m.map.length + 2) m first last (le_refl _)

theorem c10_erase_range_witness :
    ((⟨[(1, 0)], [(2, 0)], 1⟩ :
        bidirectional_map Nat Nat false false).erase_range none (some 5)
      = (⟨[(1, 0)], [(2, 0)], 1⟩, none)) ∧
    (((⟨[(1, 0)], [(2, 0)], 1⟩ :
        bidirectional_map Nat Nat false false).erase_range (some 0) (some 5)).2
        = some 5 ∨
     ((⟨[(1, 0)], [(2, 0)], 1⟩ :
        bidirectional_map Nat Nat false false).erase_range (some 0) (some 5)).2
        = none) :=
  ⟨(c10_erase_range ⟨[(1, 0)], [(2, 0)], 1⟩ none (some 5)).1 (Or.inr rfl),
   (c10_erase_range ⟨[(1, 0)], [(2, 0)], 1⟩ (some 0) (some 5)).2⟩
